import Mathlib

/-!
# Verification of the WhiteboxTools elevation-percentile and flightline-overlap cores

This file embeds the two computational cores of the repository in Lean:

* `elev_percentile.rs` — binning (stage A) and the sliding-window histogram
  percentile filter (stage B), together with the row-block dispatch loop; and
* `lidar_flightline_overlap.rs` — the fixed-radius search, the per-cell square
  test and the temporal-gap cluster count.

Machine `f64` values that the source only ever uses to hold small integers
(`n`, `n_less_than`) or to carry exact decimal data through one division are
modelled as exact rationals (`ℚ`); bins (`i64`) are modelled as `ℤ` with the
sentinel `I_MIN = -2^63`; `usize`/`isize` loop bounds are modelled as `ℕ`/`ℤ`.
The grid containers (`Array2D`, `Raster`) and the LAS/fixed-radius-search
structures are external to the two source files; they are modelled from the
specification where noted.
-/

/-- The `i64::MIN` sentinel used as the bin-grid nodata value
(`let bin_nodata = i64::MIN;` in `elev_percentile.rs`). -/
def I_MIN : ℤ := -(2 ^ 63)

/-- The inputs the EPF core consumes from the raster reader: dimensions, the
cell data, the declared nodata sentinel and the declared minimum/maximum.
`z` is only ever read inside `[0,rows) × [0,cols)`. -/
structure EpfInput where
  rows : ℤ
  cols : ℤ
  z : ℤ → ℤ → ℚ
  nodata : ℚ
  minVal : ℚ
  maxVal : ℚ

/-- Modelled from the spec: the grid read operation (`Array2D::get_value` /
`Raster::get_value`, external to the source files under verification) returns
the nodata sentinel for any index outside `[0,rows) × [0,cols)`
(spec §4.1, clamp-to-nodata read policy). -/
def getZ (g : EpfInput) (r c : ℤ) : ℚ :=
  if 0 ≤ r ∧ r < g.rows ∧ 0 ≤ c ∧ c < g.cols then g.z r c else g.nodata

/-- `let min_bin = (min_val * multiplier).floor() as i64` with
`multiplier = 10f64.powi(2) = 100`. -/
def minBin (g : EpfInput) : ℤ := ⌊g.minVal * 100⌋

/-- `let num_bins = (max_val * multiplier).floor() as i64 - min_bin + 1`. -/
def numBins (g : EpfInput) : ℤ := ⌊g.maxVal * 100⌋ - minBin g + 1

/-- Stage A (binning): cell `(r,c)` of the binned grid.  The worker computes
`val = (z*multiplier).floor() as i64 - min_bin` for non-nodata cells and the
row buffer is pre-filled with `bin_nodata`; reads outside the grid see the
bin grid's nodata (`I_MIN`), per the clamp-to-nodata read policy. -/
def binnedAt (g : EpfInput) (r c : ℤ) : ℤ :=
  if getZ g r c = g.nodata then I_MIN else ⌊getZ g r c * 100⌋ - minBin g

/-- The filter-size adjustment in `run`: sizes below 3 are raised to 3, and
even sizes are rounded up by one (`if (fs/2).floor() == fs/2 { fs += 1 }`). -/
def clampOdd (fs : ℕ) : ℕ :=
  let f := if fs < 3 then 3 else fs
  if f % 2 = 0 then f + 1 else f

/-- `let midpoint = (filter_size as f64 / 2).floor() as isize` after
adjustment; for a natural number this is truncating division by two. -/
def midpointOf (fs : ℕ) : ℕ := clampOdd fs / 2

/-- The per-column state of stage B: the window histogram, the valid-cell
count `n`, the strictly-less count `n_less_than` and the previous column's
bin value `old_bin_val`.  In the source `n` and `n_less_than` are `f64`
variables that only ever hold exact small integers (they change by ±1.0 at a
time), so they are modelled as `ℤ`; the one place a non-integer rational
arises is the emitted quotient `n_less_than / n * 100.0`. -/
structure EpfState where
  histo : ℤ → ℤ
  n : ℤ
  nLess : ℤ
  oldBin : ℤ

/-- State at the start of a row: `histo` empty (never read before the first
rebuild zeroes it, modelled as the zero map), `n = 0`, `n_less_than = 0`,
`old_bin_val = bin_nodata`. -/
def epfInit : EpfState := ⟨fun _ => 0, 0, 0, I_MIN⟩

/-- One cell's contribution inside the three histogram loops of stage B:
if the neighbour bin `b` is valid, adjust its histogram slot and `n` by
`sgn` (+1 when adding, −1 when removing) and adjust `n_less_than` when
`b` is strictly below the comparison bin `cmp`. -/
def tallyCell (sgn : ℤ) (cmp b : ℤ) (st : EpfState) : EpfState :=
  if b ≠ I_MIN then
    { histo := fun v => if v = b then st.histo v + sgn else st.histo v
      n := st.n + sgn
      nLess := if b < cmp then st.nLess + sgn else st.nLess
      oldBin := st.oldBin }
  else st

/-- `for row2 in start_row..end_row+1 { ... }` over one column `col2`,
starting at row `r0` and visiting `cnt` rows. -/
def tallyRows (Bg : ℤ → ℤ → ℤ) (sgn cmp col2 : ℤ) : ℤ → ℕ → EpfState → EpfState
  | _, 0, st => st
  | r0, h + 1, st => tallyRows Bg sgn cmp col2 (r0 + 1) h (tallyCell sgn cmp (Bg r0 col2) st)

/-- The full-rebuild double loop `for col2 in start_col..end_col+1 { for row2
in start_row..end_row+1 { ... } }`, columns outermost. -/
def tallyCols (Bg : ℤ → ℤ → ℤ) (sgn cmp : ℤ) (r0 : ℤ) (rcnt : ℕ) : ℤ → ℕ → EpfState → EpfState
  | _, 0, st => st
  | c0, w + 1, st => tallyCols Bg sgn cmp r0 rcnt (c0 + 1) w (tallyRows Bg sgn cmp c0 r0 rcnt st)

/-- Step 3 of the incremental update: move the reference from `old_bin_val`
to `bin_val` by adding or subtracting the histogram mass strictly between
them (`for v in lo..hi { m += histo[v] }`). -/
def shiftRef (histo : ℤ → ℤ) (oldRef newRef : ℤ) (nLess : ℤ) : ℤ :=
  if oldRef < newRef then nLess + ∑ v in Finset.Ico oldRef newRef, histo v
  else if newRef < oldRef then nLess - ∑ v in Finset.Ico newRef oldRef, histo v
  else nLess

/-- One column of stage B, translated from the body of
`for col in 0..columns` in `elev_percentile.rs` (lines 242–313): branch on
the centre bin and `old_bin_val`, then emit `n_less_than / n * 100` when
`n > 0` and the output nodata otherwise, then set `old_bin_val = bin_val`. -/
def epfStep (Bg : ℤ → ℤ → ℤ) (mx my : ℕ) (ndOut : ℚ) (row : ℤ) (st : EpfState) (col : ℤ) :
    EpfState × ℚ :=
  let binVal := Bg row col
  let st2 :=
    if binVal ≠ I_MIN then
      if st.oldBin ≠ I_MIN then
        -- remove the trailing column, add the leading column, then shift the reference
        let stR := tallyRows Bg (-1) st.oldBin (col - mx - 1) (row - my) (2 * my + 1) st
        let stA := tallyRows Bg 1 st.oldBin (col + mx) (row - my) (2 * my + 1) stR
        { stA with nLess := shiftRef stA.histo st.oldBin binVal stA.nLess }
      else
        -- initialize the histogram: zero it and recount the full window
        tallyCols Bg 1 binVal (row - my) (2 * my + 1) (col - mx) (2 * mx + 1)
          { histo := fun _ => 0, n := 0, nLess := 0, oldBin := st.oldBin }
    else st
  ({ st2 with oldBin := binVal },
   if 0 < st2.n then (st2.nLess : ℚ) / (st2.n : ℚ) * 100 else ndOut)

/-- The stage-B column recursion: `(epfCell …​ col)` is the carried state after
processing columns `0..col` of row `row`, paired with the value written into
`data[col]`. -/
def epfCell (Bg : ℤ → ℤ → ℤ) (mx my : ℕ) (ndOut : ℚ) (row : ℤ) : ℕ → EpfState × ℚ
  | 0 => epfStep Bg mx my ndOut row epfInit 0
  | c + 1 => epfStep Bg mx my ndOut row (epfCell Bg mx my ndOut row c).1 ((c : ℤ) + 1)

/-- The value stage B writes into `data[col]` of row `row`. -/
def epfValue (Bg : ℤ → ℤ → ℤ) (mx my : ℕ) (ndOut : ℚ) (row : ℤ) (col : ℕ) : ℚ :=
  (epfCell Bg mx my ndOut row col).2

/-- The whole EPF pipeline at one output cell: stage A binning followed by
stage B with the adjusted filter midpoints; row blocks do not interact, so
the output cell value is the row computation's value at `col`. -/
def epfOutput (g : EpfInput) (fsx fsy : ℕ) (row : ℤ) (col : ℕ) : ℚ :=
  epfValue (binnedAt g) (midpointOf fsx) (midpointOf fsy) g.nodata row col

/-- The clipped window around `(row,col)`: rows `[row−my, row+my]`, columns
`[col−mx, col+mx]` (clipping is by the clamp-to-nodata read policy). -/
def windowCells (row col : ℤ) (mx my : ℕ) : Finset (ℤ × ℤ) :=
  Finset.Icc (row - my) (row + my) ×ˢ Finset.Icc (col - mx) (col + mx)

/-- Direct recount: the number of window cells with a valid bin. -/
def windowValidCount (Bg : ℤ → ℤ → ℤ) (row col : ℤ) (mx my : ℕ) : ℕ :=
  ((windowCells row col mx my).filter fun p => Bg p.1 p.2 ≠ I_MIN).card

/-- Direct recount: the number of window cells whose valid bin is strictly
below the reference bin `ref`. -/
def windowLessCount (Bg : ℤ → ℤ → ℤ) (row col : ℤ) (mx my : ℕ) (ref : ℤ) : ℕ :=
  ((windowCells row col mx my).filter fun p => Bg p.1 p.2 ≠ I_MIN ∧ Bg p.1 p.2 < ref).card

/-- Column count of bins satisfying `p` over `cnt` rows starting at `r0`
(the proof-side image of one `tallyRows` pass). -/
def colCnt (Bg : ℤ → ℤ → ℤ) (col2 r0 : ℤ) (cnt : ℕ) (p : ℤ → Prop) [DecidablePred p] : ℤ :=
  ∑ i in Finset.range cnt, if p (Bg (r0 + i) col2) then 1 else 0

/-- Window count of bins satisfying `p`: `wcnt` columns starting at `c0`,
each of `cnt` rows starting at `r0`. -/
def winCnt (Bg : ℤ → ℤ → ℤ) (r0 : ℤ) (cnt : ℕ) (c0 : ℤ) (wcnt : ℕ)
    (p : ℤ → Prop) [DecidablePred p] : ℤ :=
  ∑ j in Finset.range wcnt, colCnt Bg (c0 + j) r0 cnt p

/-! ## Counting lemmas -/

theorem colCnt_succ (Bg : ℤ → ℤ → ℤ) (col2 r0 : ℤ) (h : ℕ) (p : ℤ → Prop) [DecidablePred p] :
    colCnt Bg col2 r0 (h + 1) p
      = (if p (Bg r0 col2) then 1 else 0) + colCnt Bg col2 (r0 + 1) h p := by
  unfold colCnt
  rw [Finset.sum_range_succ']
  simp only [Nat.cast_zero, add_zero, Nat.cast_add, Nat.cast_one]
  rw [add_comm]
  congr 1
  refine Finset.sum_congr rfl fun i _ => ?_
  ring_nf

theorem winCnt_succ (Bg : ℤ → ℤ → ℤ) (r0 : ℤ) (h : ℕ) (c0 : ℤ) (w : ℕ)
    (p : ℤ → Prop) [DecidablePred p] :
    winCnt Bg r0 h c0 (w + 1) p = colCnt Bg c0 r0 h p + winCnt Bg r0 h (c0 + 1) w p := by
  unfold winCnt
  rw [Finset.sum_range_succ']
  simp only [Nat.cast_zero, add_zero, Nat.cast_add, Nat.cast_one]
  rw [add_comm]
  congr 1
  refine Finset.sum_congr rfl fun i _ => ?_
  ring_nf

theorem winCnt_shift (Bg : ℤ → ℤ → ℤ) (r0 : ℤ) (h : ℕ) (c0 : ℤ) (w : ℕ)
    (p : ℤ → Prop) [DecidablePred p] :
    winCnt Bg r0 h (c0 + 1) w p
      = winCnt Bg r0 h c0 w p - colCnt Bg c0 r0 h p + colCnt Bg (c0 + w) r0 h p := by
  have h1 := winCnt_succ Bg r0 h c0 w p
  have h2 : winCnt Bg r0 h c0 (w + 1) p = winCnt Bg r0 h c0 w p + colCnt Bg (c0 + w) r0 h p := by
    unfold winCnt
    rw [Finset.sum_range_succ]
  linarith

theorem tallyRows_spec (Bg : ℤ → ℤ → ℤ) (sgn cmp col2 : ℤ) :
    ∀ (cnt : ℕ) (r0 : ℤ) (st : EpfState),
      (∀ v, (tallyRows Bg sgn cmp col2 r0 cnt st).histo v
          = st.histo v + sgn * colCnt Bg col2 r0 cnt (fun b => b = v ∧ b ≠ I_MIN)) ∧
      (tallyRows Bg sgn cmp col2 r0 cnt st).n
          = st.n + sgn * colCnt Bg col2 r0 cnt (fun b => b ≠ I_MIN) ∧
      (tallyRows Bg sgn cmp col2 r0 cnt st).nLess
          = st.nLess + sgn * colCnt Bg col2 r0 cnt (fun b => b ≠ I_MIN ∧ b < cmp) ∧
      (tallyRows Bg sgn cmp col2 r0 cnt st).oldBin = st.oldBin := by
  intro cnt
  induction cnt with
  | zero =>
      intro r0 st
      simp [tallyRows, colCnt]
  | succ h ih =>
      intro r0 st
      obtain ⟨ihh, ihn, ihl, iho⟩ := ih (r0 + 1) (tallyCell sgn cmp (Bg r0 col2) st)
      refine ⟨fun v => ?_, ?_, ?_, ?_⟩
      · rw [show tallyRows Bg sgn cmp col2 r0 (h+1) st
              = tallyRows Bg sgn cmp col2 (r0+1) h (tallyCell sgn cmp (Bg r0 col2) st) from rfl,
           ihh v, colCnt_succ]
        unfold tallyCell
        split_ifs with h1 h2 h3 <;> simp_all <;> ring_nf <;> omega
      · rw [show tallyRows Bg sgn cmp col2 r0 (h+1) st
              = tallyRows Bg sgn cmp col2 (r0+1) h (tallyCell sgn cmp (Bg r0 col2) st) from rfl,
           ihn, colCnt_succ]
        unfold tallyCell
        split_ifs <;> simp_all <;> ring
      · rw [show tallyRows Bg sgn cmp col2 r0 (h+1) st
              = tallyRows Bg sgn cmp col2 (r0+1) h (tallyCell sgn cmp (Bg r0 col2) st) from rfl,
           ihl, colCnt_succ]
        unfold tallyCell
        split_ifs <;> simp_all <;> ring_nf <;> omega
      · rw [show tallyRows Bg sgn cmp col2 r0 (h+1) st
              = tallyRows Bg sgn cmp col2 (r0+1) h (tallyCell sgn cmp (Bg r0 col2) st) from rfl,
           iho]
        unfold tallyCell
        split_ifs <;> rfl

theorem tallyCols_spec (Bg : ℤ → ℤ → ℤ) (sgn cmp : ℤ) (r0 : ℤ) (rcnt : ℕ) :
    ∀ (w : ℕ) (c0 : ℤ) (st : EpfState),
      (∀ v, (tallyCols Bg sgn cmp r0 rcnt c0 w st).histo v
          = st.histo v + sgn * winCnt Bg r0 rcnt c0 w (fun b => b = v ∧ b ≠ I_MIN)) ∧
      (tallyCols Bg sgn cmp r0 rcnt c0 w st).n
          = st.n + sgn * winCnt Bg r0 rcnt c0 w (fun b => b ≠ I_MIN) ∧
      (tallyCols Bg sgn cmp r0 rcnt c0 w st).nLess
          = st.nLess + sgn * winCnt Bg r0 rcnt c0 w (fun b => b ≠ I_MIN ∧ b < cmp) ∧
      (tallyCols Bg sgn cmp r0 rcnt c0 w st).oldBin = st.oldBin := by
  intro w
  induction w with
  | zero =>
      intro c0 st
      simp [tallyCols, winCnt]
  | succ w ih =>
      intro c0 st
      obtain ⟨ihh, ihn, ihl, iho⟩ := ih (c0 + 1) (tallyRows Bg sgn cmp c0 r0 rcnt st)
      obtain ⟨rh, rn, rl, ro⟩ := tallyRows_spec Bg sgn cmp c0 rcnt r0 st
      have hstep : tallyCols Bg sgn cmp r0 rcnt c0 (w + 1) st
          = tallyCols Bg sgn cmp r0 rcnt (c0 + 1) w (tallyRows Bg sgn cmp c0 r0 rcnt st) := rfl
      refine ⟨fun v => ?_, ?_, ?_, ?_⟩
      · rw [hstep, ihh v, rh v, winCnt_succ]; ring
      · rw [hstep, ihn, rn, winCnt_succ]; ring
      · rw [hstep, ihl, rl, winCnt_succ]; ring
      · rw [hstep, iho, ro]

/-- Pointwise congruence on the values the window actually reads. -/
theorem winCnt_congr (Bg : ℤ → ℤ → ℤ) (r0 : ℤ) (h : ℕ) (c0 : ℤ) (w : ℕ)
    (p q : ℤ → Prop) [DecidablePred p] [DecidablePred q]
    (hpq : ∀ r c, p (Bg r c) ↔ q (Bg r c)) :
    winCnt Bg r0 h c0 w p = winCnt Bg r0 h c0 w q := by
  unfold winCnt colCnt
  refine Finset.sum_congr rfl fun j _ => Finset.sum_congr rfl fun i _ => ?_
  by_cases hc : p (Bg (r0 + i) (c0 + j))
  · rw [if_pos hc, if_pos ((hpq _ _).1 hc)]
  · rw [if_neg hc, if_neg (fun hq => hc ((hpq _ _).2 hq))]

theorem winCnt_nonneg (Bg : ℤ → ℤ → ℤ) (r0 : ℤ) (h : ℕ) (c0 : ℤ) (w : ℕ)
    (p : ℤ → Prop) [DecidablePred p] : 0 ≤ winCnt Bg r0 h c0 w p := by
  refine Finset.sum_nonneg fun j _ => Finset.sum_nonneg fun i _ => ?_
  split_ifs <;> omega

theorem winCnt_mono (Bg : ℤ → ℤ → ℤ) (r0 : ℤ) (h : ℕ) (c0 : ℤ) (w : ℕ)
    (p q : ℤ → Prop) [DecidablePred p] [DecidablePred q] (hpq : ∀ b, p b → q b) :
    winCnt Bg r0 h c0 w p ≤ winCnt Bg r0 h c0 w q := by
  refine Finset.sum_le_sum fun j _ => Finset.sum_le_sum fun i _ => ?_
  split_ifs with h1 h2
  · omega
  · exact absurd (hpq _ h1) h2
  · omega
  · omega

/-- Summing the per-slot window counts over any finite index set equals one
window count with a membership predicate. -/
theorem winCnt_sum_eq (Bg : ℤ → ℤ → ℤ) (r0 : ℤ) (h : ℕ) (c0 : ℤ) (w : ℕ) (s : Finset ℤ) :
    (∑ v in s, winCnt Bg r0 h c0 w (fun b => b = v ∧ b ≠ I_MIN))
      = winCnt Bg r0 h c0 w (fun b => b ∈ s ∧ b ≠ I_MIN) := by
  unfold winCnt colCnt
  rw [Finset.sum_comm]
  refine Finset.sum_congr rfl fun j _ => ?_
  rw [Finset.sum_comm]
  refine Finset.sum_congr rfl fun i _ => ?_
  by_cases hb : Bg (r0 + i) (c0 + j) ≠ I_MIN
  · have key : ∀ v : ℤ,
        (if Bg (r0 + i) (c0 + j) = v ∧ Bg (r0 + i) (c0 + j) ≠ I_MIN then (1:ℤ) else 0)
          = (if v = Bg (r0 + i) (c0 + j) then (1:ℤ) else 0) := by
      intro v
      by_cases hv : v = Bg (r0 + i) (c0 + j)
      · subst hv; simp [hb]
      · rw [if_neg hv, if_neg]
        intro hc
        exact hv hc.1.symm
    rw [Finset.sum_congr rfl fun v _ => key v,
      Finset.sum_ite_eq' s (Bg (r0 + i) (c0 + j)) (fun _ => (1:ℤ))]
    by_cases hm : Bg (r0 + i) (c0 + j) ∈ s
    · simp [hm, hb]
    · simp [hm]
  · push_neg at hb
    simp [hb]

/-- Splitting a strictly-below count at a lower reference. -/
theorem winCnt_less_split (Bg : ℤ → ℤ → ℤ) (r0 : ℤ) (h : ℕ) (c0 : ℤ) (w : ℕ)
    (lo hi : ℤ) (hle : lo ≤ hi) :
    winCnt Bg r0 h c0 w (fun b => b ≠ I_MIN ∧ b < hi)
      = winCnt Bg r0 h c0 w (fun b => b ≠ I_MIN ∧ b < lo)
        + winCnt Bg r0 h c0 w (fun b => b ∈ Finset.Ico lo hi ∧ b ≠ I_MIN) := by
  unfold winCnt colCnt
  rw [← Finset.sum_add_distrib]
  refine Finset.sum_congr rfl fun j _ => ?_
  rw [← Finset.sum_add_distrib]
  refine Finset.sum_congr rfl fun i _ => ?_
  simp only [Finset.mem_Ico]
  split_ifs <;> simp_all <;> omega

/-! ## Stage-B state invariant -/

/-- The stage-B state invariant at a column: the histogram, `n` and
`n_less_than` are exactly the window recounts around `(row, col)` with
reference bin `ref`. -/
def epfWindowInv (Bg : ℤ → ℤ → ℤ) (mx my : ℕ) (row col ref : ℤ) (st : EpfState) : Prop :=
  (∀ v, st.histo v
      = winCnt Bg (row - my) (2 * my + 1) (col - mx) (2 * mx + 1) fun b => b = v ∧ b ≠ I_MIN) ∧
  st.n = winCnt Bg (row - my) (2 * my + 1) (col - mx) (2 * mx + 1) (fun b => b ≠ I_MIN) ∧
  st.nLess
      = winCnt Bg (row - my) (2 * my + 1) (col - mx) (2 * mx + 1) fun b => b ≠ I_MIN ∧ b < ref

theorem epfStep_fst_oldBin (Bg : ℤ → ℤ → ℤ) (mx my : ℕ) (ndOut : ℚ) (row : ℤ)
    (st : EpfState) (col : ℤ) : (epfStep Bg mx my ndOut row st col).1.oldBin = Bg row col := rfl

theorem epfStep_snd (Bg : ℤ → ℤ → ℤ) (mx my : ℕ) (ndOut : ℚ) (row : ℤ)
    (st : EpfState) (col : ℤ) :
    (epfStep Bg mx my ndOut row st col).2
      = if 0 < (epfStep Bg mx my ndOut row st col).1.n then
          ((epfStep Bg mx my ndOut row st col).1.nLess : ℚ)
            / ((epfStep Bg mx my ndOut row st col).1.n : ℚ) * 100
        else ndOut := rfl

theorem epfStep_skip (Bg : ℤ → ℤ → ℤ) (mx my : ℕ) (ndOut : ℚ) (row : ℤ)
    (st : EpfState) (col : ℤ) (hb : Bg row col = I_MIN) :
    (epfStep Bg mx my ndOut row st col).1 = { st with oldBin := I_MIN } := by
  unfold epfStep
  simp [hb]

theorem epfStep_rebuild (Bg : ℤ → ℤ → ℤ) (mx my : ℕ) (ndOut : ℚ) (row col : ℤ)
    (st : EpfState) (hb : Bg row col ≠ I_MIN) (ho : st.oldBin = I_MIN) :
    epfWindowInv Bg mx my row col (Bg row col) (epfStep Bg mx my ndOut row st col).1 := by
  have hstep : (epfStep Bg mx my ndOut row st col).1
      = { tallyCols Bg 1 (Bg row col) (row - my) (2 * my + 1) (col - mx) (2 * mx + 1)
            { histo := fun _ => 0, n := 0, nLess := 0, oldBin := st.oldBin }
          with oldBin := Bg row col } := by
    unfold epfStep
    simp [hb, ho]
  obtain ⟨th, tn, tl, _⟩ := tallyCols_spec Bg 1 (Bg row col) (row - my) (2 * my + 1)
    (2 * mx + 1) (col - mx) { histo := fun _ => 0, n := 0, nLess := 0, oldBin := st.oldBin }
  refine ⟨fun v => ?_, ?_, ?_⟩
  · rw [hstep]
    simpa using th v
  · rw [hstep]
    simpa using tn
  · rw [hstep]
    simpa using tl


/-- Removing the trailing column and adding the leading column slides the
window counts one column to the right, keeping `old_bin_val` as the
comparison bin. -/
theorem slide_spec (Bg : ℤ → ℤ → ℤ) (mx my : ℕ) (row col cmp : ℤ) (st : EpfState)
    (ih : ∀ v, st.histo v
        = winCnt Bg (row - my) (2 * my + 1) (col - mx) (2 * mx + 1) fun b => b = v ∧ b ≠ I_MIN)
    (inn : st.n
        = winCnt Bg (row - my) (2 * my + 1) (col - mx) (2 * mx + 1) fun b => b ≠ I_MIN)
    (il : st.nLess
        = winCnt Bg (row - my) (2 * my + 1) (col - mx) (2 * mx + 1) fun b => b ≠ I_MIN ∧ b < cmp) :
    let stA := tallyRows Bg 1 cmp (col + 1 + (mx : ℤ)) (row - my) (2 * my + 1)
      (tallyRows Bg (-1) cmp (col + 1 - (mx : ℤ) - 1) (row - my) (2 * my + 1) st)
    (∀ v, stA.histo v
        = winCnt Bg (row - my) (2 * my + 1) (col + 1 - mx) (2 * mx + 1)
            fun b => b = v ∧ b ≠ I_MIN) ∧
    (stA.n = winCnt Bg (row - my) (2 * my + 1) (col + 1 - mx) (2 * mx + 1)
        fun b => b ≠ I_MIN) ∧
    (stA.nLess = winCnt Bg (row - my) (2 * my + 1) (col + 1 - mx) (2 * mx + 1)
        fun b => b ≠ I_MIN ∧ b < cmp) := by
  intro stA
  have hpos1 : col + 1 - (mx : ℤ) - 1 = col - mx := by ring
  have hpos2 : col + 1 + (mx : ℤ) = (col - mx) + ((2 * mx + 1 : ℕ) : ℤ) := by push_cast; ring
  have hc1 : col + 1 - (mx : ℤ) = (col - mx) + 1 := by ring
  obtain ⟨rh, rn, rl, _⟩ := tallyRows_spec Bg (-1) cmp (col + 1 - (mx : ℤ) - 1)
    (2 * my + 1) (row - my) st
  obtain ⟨ah, an, al, _⟩ := tallyRows_spec Bg 1 cmp (col + 1 + (mx : ℤ))
    (2 * my + 1) (row - my)
    (tallyRows Bg (-1) cmp (col + 1 - (mx : ℤ) - 1) (row - my) (2 * my + 1) st)
  refine ⟨fun v => ?_, ?_, ?_⟩
  · rw [show stA = tallyRows Bg 1 cmp (col + 1 + (mx : ℤ)) (row - my) (2 * my + 1)
        (tallyRows Bg (-1) cmp (col + 1 - (mx : ℤ) - 1) (row - my) (2 * my + 1) st) from rfl,
      ah v, rh v, ih v, hpos1, hpos2, hc1,
      winCnt_shift Bg (row - my) (2 * my + 1) (col - mx) (2 * mx + 1)
        (fun b => b = v ∧ b ≠ I_MIN)]
    ring
  · rw [show stA = tallyRows Bg 1 cmp (col + 1 + (mx : ℤ)) (row - my) (2 * my + 1)
        (tallyRows Bg (-1) cmp (col + 1 - (mx : ℤ) - 1) (row - my) (2 * my + 1) st) from rfl,
      an, rn, inn, hpos1, hpos2, hc1,
      winCnt_shift Bg (row - my) (2 * my + 1) (col - mx) (2 * mx + 1)
        (fun b => b ≠ I_MIN)]
    ring
  · rw [show stA = tallyRows Bg 1 cmp (col + 1 + (mx : ℤ)) (row - my) (2 * my + 1)
        (tallyRows Bg (-1) cmp (col + 1 - (mx : ℤ) - 1) (row - my) (2 * my + 1) st) from rfl,
      al, rl, il, hpos1, hpos2, hc1,
      winCnt_shift Bg (row - my) (2 * my + 1) (col - mx) (2 * mx + 1)
        (fun b => b ≠ I_MIN ∧ b < cmp)]
    ring

theorem epfStep_incr (Bg : ℤ → ℤ → ℤ) (mx my : ℕ) (ndOut : ℚ) (row col : ℤ)
    (st : EpfState) (hb : Bg row (col + 1) ≠ I_MIN) (hov : Bg row col ≠ I_MIN)
    (ho : st.oldBin = Bg row col)
    (hinv : epfWindowInv Bg mx my row col (Bg row col) st) :
    epfWindowInv Bg mx my row (col + 1) (Bg row (col + 1))
      (epfStep Bg mx my ndOut row st (col + 1)).1 := by
  obtain ⟨ih, inn, il⟩ := hinv
  rw [← ho] at il hov
  obtain ⟨hAh, hAn, hAl⟩ := slide_spec Bg mx my row col st.oldBin st ih inn il
  have hstep : (epfStep Bg mx my ndOut row st (col + 1)).1
      = { histo := (tallyRows Bg 1 st.oldBin (col + 1 + (mx : ℤ)) (row - my) (2 * my + 1)
            (tallyRows Bg (-1) st.oldBin (col + 1 - (mx : ℤ) - 1) (row - my)
              (2 * my + 1) st)).histo,
          n := (tallyRows Bg 1 st.oldBin (col + 1 + (mx : ℤ)) (row - my) (2 * my + 1)
            (tallyRows Bg (-1) st.oldBin (col + 1 - (mx : ℤ) - 1) (row - my)
              (2 * my + 1) st)).n,
          nLess := shiftRef
            (tallyRows Bg 1 st.oldBin (col + 1 + (mx : ℤ)) (row - my) (2 * my + 1)
              (tallyRows Bg (-1) st.oldBin (col + 1 - (mx : ℤ) - 1) (row - my)
                (2 * my + 1) st)).histo
            st.oldBin (Bg row (col + 1))
            (tallyRows Bg 1 st.oldBin (col + 1 + (mx : ℤ)) (row - my) (2 * my + 1)
              (tallyRows Bg (-1) st.oldBin (col + 1 - (mx : ℤ) - 1) (row - my)
                (2 * my + 1) st)).nLess,
          oldBin := Bg row (col + 1) } := by
    unfold epfStep
    simp [hb, hov]
  refine ⟨fun v => ?_, ?_, ?_⟩
  · rw [hstep]; exact hAh v
  · rw [hstep]; exact hAn
  · rw [hstep]
    show shiftRef _ st.oldBin (Bg row (col + 1)) _ = _
    unfold shiftRef
    rcases lt_trichotomy st.oldBin (Bg row (col + 1)) with hlt | heq | hgt
    · rw [if_pos hlt, Finset.sum_congr rfl fun v _ => hAh v, winCnt_sum_eq, hAl,
        winCnt_less_split Bg (row - my) (2 * my + 1) (col + 1 - mx) (2 * mx + 1)
          st.oldBin (Bg row (col + 1)) (le_of_lt hlt)]
    · rw [if_neg (by omega), if_neg (by omega), hAl, heq]
    · rw [if_neg (by omega), if_pos hgt, Finset.sum_congr rfl fun v _ => hAh v,
        winCnt_sum_eq, hAl,
        winCnt_less_split Bg (row - my) (2 * my + 1) (col + 1 - mx) (2 * mx + 1)
          (Bg row (col + 1)) st.oldBin (le_of_lt hgt)]
      ring

theorem epfCell_oldBin (Bg : ℤ → ℤ → ℤ) (mx my : ℕ) (ndOut : ℚ) (row : ℤ) (col : ℕ) :
    (epfCell Bg mx my ndOut row col).1.oldBin = Bg row col := by
  cases col with
  | zero => simpa using epfStep_fst_oldBin Bg mx my ndOut row epfInit 0
  | succ c =>
      have := epfStep_fst_oldBin Bg mx my ndOut row (epfCell Bg mx my ndOut row c).1 ((c : ℤ) + 1)
      rw [show ((c + 1 : ℕ) : ℤ) = (c : ℤ) + 1 from by push_cast; ring]
      exact this

/-- The state invariant holds at every valid-centre column. -/
theorem epf_state_spec (Bg : ℤ → ℤ → ℤ) (mx my : ℕ) (ndOut : ℚ) (row : ℤ) :
    ∀ col : ℕ, Bg row col ≠ I_MIN →
      epfWindowInv Bg mx my row col (Bg row col) (epfCell Bg mx my ndOut row col).1 := by
  intro col
  induction col with
  | zero =>
      intro hb
      have h0 : ((0 : ℕ) : ℤ) = (0 : ℤ) := by norm_num
      rw [h0] at hb ⊢
      exact epfStep_rebuild Bg mx my ndOut row 0 epfInit hb rfl
  | succ c ih =>
      intro hb
      have hcast : ((c + 1 : ℕ) : ℤ) = (c : ℤ) + 1 := by push_cast; ring
      rw [hcast] at hb ⊢
      have hcell : (epfCell Bg mx my ndOut row (c + 1)).1
          = (epfStep Bg mx my ndOut row (epfCell Bg mx my ndOut row c).1 ((c : ℤ) + 1)).1 := rfl
      rw [hcell]
      by_cases hv : Bg row (c : ℤ) = I_MIN
      · exact epfStep_rebuild Bg mx my ndOut row ((c : ℤ) + 1)
          (epfCell Bg mx my ndOut row c).1 hb ((epfCell_oldBin Bg mx my ndOut row c).trans hv)
      · exact epfStep_incr Bg mx my ndOut row (c : ℤ) (epfCell Bg mx my ndOut row c).1 hb hv
          (epfCell_oldBin Bg mx my ndOut row c) (ih hv)

theorem epfWindowInv_bounds {Bg : ℤ → ℤ → ℤ} {mx my : ℕ} {row col ref : ℤ} {st : EpfState}
    (hinv : epfWindowInv Bg mx my row col ref st) : 0 ≤ st.nLess ∧ st.nLess ≤ st.n := by
  rw [hinv.2.1, hinv.2.2]
  exact ⟨winCnt_nonneg _ _ _ _ _ _, winCnt_mono _ _ _ _ _ _ _ fun b hb => hb.1⟩

/-- `n_less_than` and `n` stay within `0 ≤ n_less_than ≤ n` at every column. -/
theorem epf_counts_bounds (Bg : ℤ → ℤ → ℤ) (mx my : ℕ) (ndOut : ℚ) (row : ℤ) :
    ∀ col : ℕ, 0 ≤ (epfCell Bg mx my ndOut row col).1.nLess ∧
      (epfCell Bg mx my ndOut row col).1.nLess ≤ (epfCell Bg mx my ndOut row col).1.n := by
  intro col
  induction col with
  | zero =>
      by_cases hv : Bg row ((0 : ℕ) : ℤ) = I_MIN
      · have hskip := epfStep_skip Bg mx my ndOut row epfInit 0 (by simpa using hv)
        have : (epfCell Bg mx my ndOut row 0).1 = { epfInit with oldBin := I_MIN } := by
          rw [show (epfCell Bg mx my ndOut row 0).1
              = (epfStep Bg mx my ndOut row epfInit 0).1 from rfl, hskip]
        rw [this]
        exact ⟨le_refl 0, le_refl 0⟩
      · exact epfWindowInv_bounds (epf_state_spec Bg mx my ndOut row 0 hv)
  | succ c ih =>
      by_cases hv : Bg row ((c + 1 : ℕ) : ℤ) = I_MIN
      · have hskip := epfStep_skip Bg mx my ndOut row (epfCell Bg mx my ndOut row c).1
          ((c : ℤ) + 1) (by rw [show (c : ℤ) + 1 = ((c + 1 : ℕ) : ℤ) from by push_cast; ring]; exact hv)
        have hcell : (epfCell Bg mx my ndOut row (c + 1)).1
            = { (epfCell Bg mx my ndOut row c).1 with oldBin := I_MIN } := by
          rw [show (epfCell Bg mx my ndOut row (c + 1)).1
              = (epfStep Bg mx my ndOut row (epfCell Bg mx my ndOut row c).1
                  ((c : ℤ) + 1)).1 from rfl, hskip]
        rw [hcell]
        exact ih
      · exact epfWindowInv_bounds (epf_state_spec Bg mx my ndOut row (c + 1) hv)

/-! ## Bridging window counts with the direct recount -/

theorem sum_shift_Ico {M : Type} [AddCommMonoid M] (f : ℤ → M) (a : ℤ) :
    ∀ n : ℕ, ∑ i in Finset.range n, f (a + i) = ∑ x in Finset.Ico a (a + n), f x := by
  intro n
  induction n with
  | zero => simp
  | succ k ihk =>
      rw [Finset.sum_range_succ, ihk]
      have hins : Finset.Ico a (a + ((k + 1 : ℕ) : ℤ))
          = insert (a + k) (Finset.Ico a (a + (k : ℕ))) := by
        ext x
        simp only [Finset.mem_Ico, Finset.mem_insert]
        push_cast
        omega
      rw [hins, Finset.sum_insert (by simp only [Finset.mem_Ico]; omega), add_comm]

theorem winCnt_eq_card (Bg : ℤ → ℤ → ℤ) (row col : ℤ) (mx my : ℕ)
    (p : ℤ → Prop) [DecidablePred p] :
    winCnt Bg (row - my) (2 * my + 1) (col - mx) (2 * mx + 1) p
      = (((windowCells row col mx my).filter fun q => p (Bg q.1 q.2)).card : ℤ) := by
  rw [Finset.card_filter]
  unfold windowCells
  push_cast [Finset.sum_product, apply_ite (fun n : ℕ => (n : ℤ))]
  rw [Finset.sum_comm]
  unfold winCnt colCnt
  have hrow : Finset.Icc (row - (my : ℤ)) (row + my)
      = Finset.Ico (row - (my : ℤ)) ((row - (my : ℤ)) + ((2 * my + 1 : ℕ) : ℤ)) := by
    rw [show (row - (my : ℤ)) + ((2 * my + 1 : ℕ) : ℤ) = (row + my) + 1 from by push_cast; ring]
    ext x
    simp only [Finset.mem_Icc, Finset.mem_Ico]
    omega
  have hcol : Finset.Icc (col - (mx : ℤ)) (col + mx)
      = Finset.Ico (col - (mx : ℤ)) ((col - (mx : ℤ)) + ((2 * mx + 1 : ℕ) : ℤ)) := by
    rw [show (col - (mx : ℤ)) + ((2 * mx + 1 : ℕ) : ℤ) = (col + mx) + 1 from by push_cast; ring]
    ext x
    simp only [Finset.mem_Icc, Finset.mem_Ico]
    omega
  rw [hcol]
  rw [← sum_shift_Ico (fun c2 => ∑ r2 in Finset.Icc (row - (my : ℤ)) (row + my),
      if p (Bg r2 c2) then (1 : ℤ) else 0) (col - mx) (2 * mx + 1)]
  refine Finset.sum_congr rfl fun j _ => ?_
  rw [hrow, ← sum_shift_Ico (fun r2 => if p (Bg r2 (col - mx + j)) then (1 : ℤ) else 0)
      (row - my) (2 * my + 1)]

theorem epfCell_snd (Bg : ℤ → ℤ → ℤ) (mx my : ℕ) (ndOut : ℚ) (row : ℤ) (col : ℕ) :
    (epfCell Bg mx my ndOut row col).2
      = if 0 < (epfCell Bg mx my ndOut row col).1.n then
          ((epfCell Bg mx my ndOut row col).1.nLess : ℚ)
            / ((epfCell Bg mx my ndOut row col).1.n : ℚ) * 100
        else ndOut := by
  cases col with
  | zero => rfl
  | succ c => rfl

theorem windowValidCount_pos (Bg : ℤ → ℤ → ℤ) (row col : ℤ) (mx my : ℕ)
    (hb : Bg row col ≠ I_MIN) : 0 < windowValidCount Bg row col mx my := by
  refine Finset.card_pos.2 ⟨(row, col), ?_⟩
  rw [Finset.mem_filter]
  refine ⟨?_, hb⟩
  rw [windowCells, Finset.mem_product]
  constructor <;> rw [Finset.mem_Icc] <;> constructor <;> simp

/-- The central correctness fact: at every valid-centre cell the value stage B
emits equals the percentile computed by a direct recount of the clipped
window. -/
theorem epf_value_recount (Bg : ℤ → ℤ → ℤ) (mx my : ℕ) (ndOut : ℚ) (row : ℤ) (col : ℕ)
    (hb : Bg row col ≠ I_MIN) :
    epfValue Bg mx my ndOut row col
      = 100 * (windowLessCount Bg row col mx my (Bg row col) : ℚ)
          / (windowValidCount Bg row col mx my : ℚ) := by
  obtain ⟨_, hn, hl⟩ := epf_state_spec Bg mx my ndOut row col hb
  have hncard : (epfCell Bg mx my ndOut row col).1.n
      = ((windowValidCount Bg row col mx my : ℕ) : ℤ) := by
    rw [hn, windowValidCount]
    exact winCnt_eq_card Bg row col mx my fun b => b ≠ I_MIN
  have hlcard : (epfCell Bg mx my ndOut row col).1.nLess
      = ((windowLessCount Bg row col mx my (Bg row col) : ℕ) : ℤ) := by
    rw [hl, windowLessCount]
    exact winCnt_eq_card Bg row col mx my fun b => b ≠ I_MIN ∧ b < Bg row col
  have hpos := windowValidCount_pos Bg row col mx my hb
  rw [epfValue, epfCell_snd, hncard, hlcard,
    if_pos (by exact_mod_cast hpos)]
  have hq : ((windowValidCount Bg row col mx my : ℕ) : ℚ) ≠ 0 := by
    exact_mod_cast Nat.pos_iff_ne_zero.1 hpos
  push_cast
  field_simp
  ring

/-- Every value stage B writes is either the output nodata or lies in
`[0, 100]`. -/
theorem epfValue_range (Bg : ℤ → ℤ → ℤ) (mx my : ℕ) (ndOut : ℚ) (row : ℤ) (col : ℕ) :
    epfValue Bg mx my ndOut row col = ndOut ∨
      (0 ≤ epfValue Bg mx my ndOut row col ∧ epfValue Bg mx my ndOut row col ≤ 100) := by
  obtain ⟨hl0, hln⟩ := epf_counts_bounds Bg mx my ndOut row col
  rw [epfValue, epfCell_snd]
  by_cases hpos : 0 < (epfCell Bg mx my ndOut row col).1.n
  · right
    rw [if_pos hpos]
    have hq0 : (0 : ℚ) ≤ ((epfCell Bg mx my ndOut row col).1.nLess : ℚ) := by exact_mod_cast hl0
    have hqn : (0 : ℚ) < ((epfCell Bg mx my ndOut row col).1.n : ℚ) := by exact_mod_cast hpos
    have hqle : ((epfCell Bg mx my ndOut row col).1.nLess : ℚ)
        ≤ ((epfCell Bg mx my ndOut row col).1.n : ℚ) := by exact_mod_cast hln
    constructor
    · positivity
    · have hd : ((epfCell Bg mx my ndOut row col).1.nLess : ℚ)
          / ((epfCell Bg mx my ndOut row col).1.n : ℚ) ≤ 1 := by
        rw [div_le_one hqn]
        exact hqle
      calc ((epfCell Bg mx my ndOut row col).1.nLess : ℚ)
            / ((epfCell Bg mx my ndOut row col).1.n : ℚ) * 100
          ≤ 1 * 100 := by
            exact mul_le_mul_of_nonneg_right hd (by norm_num)
        _ = 100 := by norm_num
  · left
    rw [if_neg hpos]

/-! ## Binned-value range -/

/-- Under the raster contract (declared min/max bracket every non-nodata
value), every valid bin lies in `[0, num_bins)`. -/
theorem binnedAt_range (g : EpfInput)
    (hbr : ∀ r c, getZ g r c ≠ g.nodata → g.minVal ≤ getZ g r c ∧ getZ g r c ≤ g.maxVal)
    (r c : ℤ) (h : binnedAt g r c ≠ I_MIN) :
    0 ≤ binnedAt g r c ∧ binnedAt g r c < numBins g := by
  unfold binnedAt at h ⊢
  by_cases hz : getZ g r c = g.nodata
  · rw [if_pos hz] at h
    exact absurd rfl h
  · rw [if_neg hz]
    obtain ⟨h1, h2⟩ := hbr r c hz
    have f1 : ⌊g.minVal * 100⌋ ≤ ⌊getZ g r c * 100⌋ :=
      Int.floor_le_floor (by nlinarith)
    have f2 : ⌊getZ g r c * 100⌋ ≤ ⌊g.maxVal * 100⌋ :=
      Int.floor_le_floor (by nlinarith)
    unfold numBins minBin
    omega

/-- The set of histogram indices stage B can touch: a valid bin of some cell
(full rebuild, trailing-column removal, leading-column addition), or an index
scanned by the reference-shift loop `for v in lo..hi`, which runs between two
valid bins. -/
def stageBIndices (g : EpfInput) : Set ℤ :=
  {v | (∃ r c, binnedAt g r c = v ∧ v ≠ I_MIN) ∨
       (∃ r c r2 c2, binnedAt g r c ≠ I_MIN ∧ binnedAt g r2 c2 ≠ I_MIN ∧
          binnedAt g r c ≤ v ∧ v < binnedAt g r2 c2)}

/-- C7: under the bracketing precondition every non-nodata bin `b` satisfies
`0 ≤ b < num_bins`, hence every histogram index stage B uses is in bounds and
the out-of-range (fatal) branch is unreachable. -/
theorem epf_histogram_indices_in_bounds (g : EpfInput)
    (hbr : ∀ r c, getZ g r c ≠ g.nodata → g.minVal ≤ getZ g r c ∧ getZ g r c ≤ g.maxVal)
    (v : ℤ) (hv : v ∈ stageBIndices g) : 0 ≤ v ∧ v < numBins g := by
  rcases hv with ⟨r, c, hb, hne⟩ | ⟨r, c, r2, c2, h1, h2, hle, hlt⟩
  · rw [← hb]
    exact binnedAt_range g hbr r c (hb ▸ hne)
  · obtain ⟨hlo, _⟩ := binnedAt_range g hbr r c h1
    obtain ⟨_, hhi⟩ := binnedAt_range g hbr r2 c2 h2
    omega

/-- C6: at every valid-centre column of stage B the carried state satisfies
`Σ histo = n` (summing all `num_bins` slots) and
`Σ_{v < ref} histo[v] = n_less` (summing the slots strictly below the centre
cell's reference bin). -/
theorem epf_histogram_consistency (g : EpfInput)
    (hbr : ∀ r c, getZ g r c ≠ g.nodata → g.minVal ≤ getZ g r c ∧ getZ g r c ≤ g.maxVal)
    (fsx fsy : ℕ) (row : ℤ) (col : ℕ)
    (hb : binnedAt g row col ≠ I_MIN) :
    (∑ v in Finset.Ico 0 (numBins g),
        (epfCell (binnedAt g) (midpointOf fsx) (midpointOf fsy) g.nodata row col).1.histo v)
      = (epfCell (binnedAt g) (midpointOf fsx) (midpointOf fsy) g.nodata row col).1.n ∧
    (∑ v in Finset.Ico 0 (binnedAt g row col),
        (epfCell (binnedAt g) (midpointOf fsx) (midpointOf fsy) g.nodata row col).1.histo v)
      = (epfCell (binnedAt g) (midpointOf fsx) (midpointOf fsy) g.nodata row col).1.nLess := by
  obtain ⟨ihist, hn, hl⟩ :=
    epf_state_spec (binnedAt g) (midpointOf fsx) (midpointOf fsy) g.nodata row col hb
  obtain ⟨hc0, _⟩ := binnedAt_range g hbr row col hb
  constructor
  · rw [Finset.sum_congr rfl fun v _ => ihist v, winCnt_sum_eq, hn]
    refine winCnt_congr _ _ _ _ _ _ _ fun r c => ?_
    constructor
    · exact fun h => h.2
    · intro h
      obtain ⟨hr1, hr2⟩ := binnedAt_range g hbr r c h
      exact ⟨Finset.mem_Ico.2 ⟨hr1, hr2⟩, h⟩
  · rw [Finset.sum_congr rfl fun v _ => ihist v, winCnt_sum_eq, hl]
    refine winCnt_congr _ _ _ _ _ _ _ fun r c => ?_
    constructor
    · intro h
      exact ⟨h.2, (Finset.mem_Ico.1 h.1).2⟩
    · intro h
      obtain ⟨hr1, _⟩ := binnedAt_range g hbr r c h.1
      exact ⟨Finset.mem_Ico.2 ⟨hr1, h.2⟩, h.1⟩

/-- C3: at every valid-centre cell, the value emitted by stage B (incremental
update or rebuild) equals `100 · |{window cells with valid bin < centre bin}|
/ |{window cells with valid bin}|` computed by a direct recount of the
clipped window. -/
theorem epf_incremental_matches_recount (g : EpfInput) (fsx fsy : ℕ) (row : ℤ) (col : ℕ)
    (hb : binnedAt g row col ≠ I_MIN) :
    epfOutput g fsx fsy row col
      = 100 * (windowLessCount (binnedAt g) row col (midpointOf fsx) (midpointOf fsy)
            (binnedAt g row col) : ℚ)
        / (windowValidCount (binnedAt g) row col (midpointOf fsx) (midpointOf fsy) : ℚ) :=
  epf_value_recount (binnedAt g) (midpointOf fsx) (midpointOf fsy) g.nodata row col hb

/-- C10: every value stage B writes into an output row is either the raster's
nodata value or a number in `[0, 100]`. -/
theorem epf_output_nodata_or_unit_range (g : EpfInput) (fsx fsy : ℕ) (row : ℤ) (col : ℕ) :
    epfOutput g fsx fsy row col = g.nodata ∨
      (0 ≤ epfOutput g fsx fsy row col ∧ epfOutput g fsx fsy row col ≤ 100) :=
  epfValue_range (binnedAt g) (midpointOf fsx) (midpointOf fsy) g.nodata row col

/-- C5: on a grid whose non-nodata cells all equal one finite value `v`
(bracketed below by the declared minimum, per the raster contract), every
output cell with a valid centre equals 0. -/
theorem epf_flat_surface (g : EpfInput) (v : ℚ)
    (hz : ∀ r c, getZ g r c ≠ g.nodata → getZ g r c = v)
    (hmin : g.minVal ≤ v) (fsx fsy : ℕ) (row : ℤ) (col : ℕ)
    (hc : getZ g row (col : ℤ) ≠ g.nodata) :
    epfOutput g fsx fsy row col = 0 := by
  have hbin : ∀ r c, binnedAt g r c ≠ I_MIN → binnedAt g r c = ⌊v * 100⌋ - minBin g := by
    intro r c h
    unfold binnedAt at h ⊢
    by_cases hzc : getZ g r c = g.nodata
    · rw [if_pos hzc] at h
      exact absurd rfl h
    · rw [if_neg hzc, hz r c hzc]
  have hb0 : (0 : ℤ) ≤ ⌊v * 100⌋ - minBin g := by
    have : ⌊g.minVal * 100⌋ ≤ ⌊v * 100⌋ := Int.floor_le_floor (by nlinarith)
    unfold minBin
    omega
  have hbc : binnedAt g row col = ⌊v * 100⌋ - minBin g := by
    unfold binnedAt
    rw [if_neg hc, hz row col hc]
  have hIneg : I_MIN < 0 := by norm_num [I_MIN]
  have hbne : binnedAt g row (col : ℤ) ≠ I_MIN := by
    rw [hbc]
    omega
  rw [epfOutput, epf_value_recount (binnedAt g) (midpointOf fsx) (midpointOf fsy)
    g.nodata row col hbne]
  have hL : windowLessCount (binnedAt g) row col (midpointOf fsx) (midpointOf fsy)
      (binnedAt g row col) = 0 := by
    rw [windowLessCount, Finset.card_eq_zero, Finset.filter_eq_empty_iff]
    intro q _
    intro hcontra
    obtain ⟨hvq, hltq⟩ := hcontra
    rw [hbin q.1 q.2 hvq, hbc] at hltq
    omega
  rw [hL]
  norm_num

/-! ## Monotone-ramp counting -/

theorem midpointOf_odd (mx : ℕ) (h : 1 ≤ mx) : midpointOf (2 * mx + 1) = mx := by
  unfold midpointOf clampOdd
  have h3 : ¬(2 * mx + 1 < 3) := by omega
  have h2 : (2 * mx + 1) % 2 ≠ 0 := by omega
  simp only [if_neg h3, if_neg h2]
  omega

/-- On a window whose cells all carry a bin depending only on the column and
strictly increasing with it, the recounts are `(2my+1)(2mx+1)` valid cells
and `(2my+1)·mx` cells strictly below the centre bin. -/
theorem epf_monotone_counts (Bg : ℤ → ℤ → ℤ) (mx my : ℕ) (row col : ℤ) (β : ℤ → ℤ)
    (hall : ∀ r2 c2, row - my ≤ r2 → r2 ≤ row + my → col - mx ≤ c2 → c2 ≤ col + mx →
        Bg r2 c2 = β c2 ∧ β c2 ≠ I_MIN)
    (hmono : ∀ c1 c2, col - mx ≤ c1 → c1 < c2 → c2 ≤ col + mx → β c1 < β c2) :
    windowValidCount Bg row col mx my = (2 * my + 1) * (2 * mx + 1) ∧
    windowLessCount Bg row col mx my (Bg row col) = (2 * my + 1) * mx := by
  have hcen : Bg row col = β col :=
    (hall row col (by omega) (by omega) (by omega) (by omega)).1
  have hmemw : ∀ q : ℤ × ℤ, q ∈ windowCells row col mx my ↔
      (row - my ≤ q.1 ∧ q.1 ≤ row + my ∧ col - mx ≤ q.2 ∧ q.2 ≤ col + mx) := by
    intro q
    rw [windowCells, Finset.mem_product, Finset.mem_Icc, Finset.mem_Icc]
    tauto
  constructor
  · rw [windowValidCount, Finset.filter_true_of_mem]
    · rw [windowCells, Finset.card_product, Int.card_Icc, Int.card_Icc]
      have e1 : row + (my : ℤ) + 1 - (row - my) = ((2 * my + 1 : ℕ) : ℤ) := by push_cast; ring
      have e2 : col + (mx : ℤ) + 1 - (col - mx) = ((2 * mx + 1 : ℕ) : ℤ) := by push_cast; ring
      rw [e1, e2, Int.toNat_natCast, Int.toNat_natCast]
    · intro q hq
      obtain ⟨h1, h2, h3, h4⟩ := (hmemw q).1 hq
      rw [(hall q.1 q.2 h1 h2 h3 h4).1]
      exact (hall q.1 q.2 h1 h2 h3 h4).2
  · rw [windowLessCount]
    have hfe : (windowCells row col mx my).filter
        (fun p => Bg p.1 p.2 ≠ I_MIN ∧ Bg p.1 p.2 < Bg row col)
        = Finset.Icc (row - (my : ℤ)) (row + my) ×ˢ Finset.Icc (col - (mx : ℤ)) (col - 1) := by
      ext q
      rw [Finset.mem_filter, Finset.mem_product, Finset.mem_Icc, Finset.mem_Icc, hmemw q]
      constructor
      · rintro ⟨⟨h1, h2, h3, h4⟩, _, hlt⟩
        refine ⟨⟨h1, h2⟩, h3, ?_⟩
        rw [(hall q.1 q.2 h1 h2 h3 h4).1, hcen] at hlt
        by_contra hge
        push_neg at hge
        rcases lt_or_eq_of_le (show col ≤ q.2 by omega) with hgt | heqc
        · exact absurd (hmono col q.2 (by omega) hgt h4) (by omega)
        · rw [← heqc] at hlt
          omega
      · rintro ⟨⟨h1, h2⟩, h3, h4⟩
        have h4w : q.2 ≤ col + mx := by omega
        obtain ⟨hbq, hnq⟩ := hall q.1 q.2 h1 h2 h3 h4w
        refine ⟨⟨h1, h2, h3, h4w⟩, by rw [hbq]; exact hnq, ?_⟩
        rw [hbq, hcen]
        exact hmono q.2 col h3 (by omega) (by omega)
    rw [hfe, Finset.card_product, Int.card_Icc, Int.card_Icc]
    have e1 : row + (my : ℤ) + 1 - (row - my) = ((2 * my + 1 : ℕ) : ℤ) := by push_cast; ring
    have e2 : col - 1 + 1 - (col - (mx : ℤ)) = ((mx : ℕ) : ℤ) := by push_cast; ring
    rw [e1, e2, Int.toNat_natCast, Int.toNat_natCast]

/-- On a grid whose binned values depend only on the column and increase
strictly with it, an interior cell of the `k×k` filter (`k = 2mx+1`) gets
the value `100·mx/k`. -/
theorem epf_monotone_output (g : EpfInput) (mx : ℕ) (hmx : 1 ≤ mx) (β : ℤ → ℤ)
    (hcells : ∀ r c, 0 ≤ r → r < g.rows → 0 ≤ c → c < g.cols →
        binnedAt g r c = β c ∧ β c ≠ I_MIN)
    (hmono : ∀ c1 c2, 0 ≤ c1 → c1 < c2 → c2 < g.cols → β c1 < β c2)
    (row : ℤ) (col : ℕ)
    (hint : (mx : ℤ) ≤ row ∧ row + mx < g.rows ∧ (mx : ℤ) ≤ (col : ℤ) ∧ (col : ℤ) + mx < g.cols) :
    epfOutput g (2 * mx + 1) (2 * mx + 1) row col = 100 * (mx : ℚ) / ((2 * mx + 1 : ℕ) : ℚ) := by
  obtain ⟨hi1, hi2, hi3, hi4⟩ := hint
  have hall : ∀ r2 c2, row - mx ≤ r2 → r2 ≤ row + mx → (col : ℤ) - mx ≤ c2 →
      c2 ≤ (col : ℤ) + mx → binnedAt g r2 c2 = β c2 ∧ β c2 ≠ I_MIN := by
    intro r2 c2 h1 h2 h3 h4
    exact hcells r2 c2 (by omega) (by omega) (by omega) (by omega)
  have hmonow : ∀ c1 c2, (col : ℤ) - mx ≤ c1 → c1 < c2 → c2 ≤ (col : ℤ) + mx → β c1 < β c2 := by
    intro c1 c2 h1 h2 h3
    exact hmono c1 c2 (by omega) h2 (by omega)
  have hbc : binnedAt g row col = β col ∧ β col ≠ I_MIN :=
    hcells row col (by omega) (by omega) (by omega) (by omega)
  have hbne : binnedAt g row (col : ℤ) ≠ I_MIN := by
    rw [hbc.1]
    exact hbc.2
  obtain ⟨hV, hL⟩ := epf_monotone_counts (binnedAt g) mx mx row col β hall hmonow
  rw [epfOutput, midpointOf_odd mx hmx,
    epf_value_recount (binnedAt g) mx mx g.nodata row col hbne, hL, hV]
  have hk : ((2 * mx + 1 : ℕ) : ℚ) ≠ 0 := by
    positivity
  push_cast
  field_simp
  ring

/-! ## Concrete instances -/

/-- A 3×3 constant raster: every cell holds 50 m expressed here as the
rational 5 (declared min = max = 5), nodata −32768. -/
def exConst : EpfInput :=
  { rows := 3, cols := 3, z := fun _ _ => 5, nodata := -32768, minVal := 5, maxVal := 5 }

theorem exConst_getZ (r c : ℤ) (h : getZ exConst r c ≠ exConst.nodata) :
    getZ exConst r c = 5 := by
  unfold getZ at h ⊢
  split_ifs at h ⊢ with hcond
  · rfl
  · exact absurd rfl h

theorem exConst_center : getZ exConst 1 1 ≠ exConst.nodata := by
  unfold getZ exConst
  norm_num

theorem exConst_bin_center : binnedAt exConst 1 1 = 0 := by
  unfold binnedAt minBin
  rw [if_neg exConst_center, exConst_getZ 1 1 exConst_center]
  rw [show exConst.minVal = 5 from rfl]
  omega

theorem I_MIN_neg : I_MIN < 0 := by norm_num [I_MIN]

theorem exConst_bracket (r c : ℤ) (h : getZ exConst r c ≠ exConst.nodata) :
    exConst.minVal ≤ getZ exConst r c ∧ getZ exConst r c ≤ exConst.maxVal := by
  rw [exConst_getZ r c h]
  exact ⟨le_refl _, le_refl _⟩

/-- A 1×2 raster whose first cell holds 5 and whose second cell is nodata. -/
def ex1 : EpfInput :=
  { rows := 1, cols := 2, z := fun _ c => if c = 0 then 5 else -32768,
    nodata := -32768, minVal := 5, maxVal := 5 }

/-- The binned grid of `ex1`: bin 0 at `(0,0)`, the sentinel elsewhere. -/
def ex1Bin : ℤ → ℤ → ℤ := fun r c => if r = 0 ∧ c = 0 then 0 else I_MIN

theorem ex1_binned (r c : ℤ) : binnedAt ex1 r c = ex1Bin r c := by
  unfold binnedAt getZ ex1Bin minBin
  by_cases hin : 0 ≤ r ∧ r < ex1.rows ∧ 0 ≤ c ∧ c < ex1.cols
  · rw [if_pos hin]
    obtain ⟨h1, h2, h3, h4⟩ := hin
    rw [show ex1.rows = 1 from rfl] at h2
    rw [show ex1.cols = 2 from rfl] at h4
    have hr : r = 0 := by omega
    by_cases hc : c = 0
    · have hz : ex1.z r c = 5 := by rw [show ex1.z = fun _ c => if c = 0 then 5 else -32768 from rfl]; simp [hc]
      rw [hz, if_neg (by rw [show ex1.nodata = -32768 from rfl]; norm_num),
        if_pos ⟨hr, hc⟩, show ex1.minVal = 5 from rfl]
      omega
    · have hz : ex1.z r c = -32768 := by
        rw [show ex1.z = fun _ c => if c = 0 then 5 else -32768 from rfl]; simp [hc]
      rw [hz, if_pos (by rw [show ex1.nodata = -32768 from rfl]),
        if_neg (by tauto)]
  · rw [if_neg hin, if_pos (by rw [show ex1.nodata = -32768 from rfl]), if_neg]
    intro hcontra
    obtain ⟨hr0, hc0⟩ := hcontra
    rw [hr0, hc0] at hin
    refine hin ⟨le_refl 0, ?_, le_refl 0, ?_⟩
    · rw [show ex1.rows = 1 from rfl]
      norm_num
    · rw [show ex1.cols = 2 from rfl]
      norm_num

theorem ex1_transport : epfOutput ex1 3 3 0 1 = epfValue ex1Bin 1 1 (-32768 : ℚ) 0 1 := by
  rw [epfOutput]
  have hfun : binnedAt ex1 = ex1Bin := funext fun r => funext fun c => ex1_binned r c
  rw [hfun, show midpointOf 3 = 1 from rfl, show ex1.nodata = (-32768 : ℚ) from rfl]

theorem ex1_state_n : (epfCell ex1Bin 1 1 (-32768 : ℚ) 0 1).1.n = 1 := by decide

theorem ex1_state_nLess : (epfCell ex1Bin 1 1 (-32768 : ℚ) 0 1).1.nLess = 0 := by decide

/-- C1: the code does NOT propagate nodata at the window centre.  On the 1×2
raster `ex1` (one valid cell of 5, one nodata cell), cell `(0,1)` has a
nodata centre, yet stage B emits the stale percentile `0` of the previous
column — not the nodata value −32768 — because the carried `n = 1` is still
positive and the emission only tests `n > 0`. -/
theorem epf_nodata_center_writes_stale :
    binnedAt ex1 0 1 = I_MIN ∧ epfOutput ex1 3 3 0 1 = 0 ∧ (0 : ℚ) ≠ ex1.nodata := by
  refine ⟨?_, ?_, ?_⟩
  · rw [ex1_binned]
    unfold ex1Bin
    norm_num
  · rw [ex1_transport, epfValue, epfCell_snd, ex1_state_n, ex1_state_nLess]
    norm_num
  · rw [show ex1.nodata = (-32768 : ℚ) from rfl]
    norm_num

/-- A 5×5 raster strictly increasing with column index: `z(r,c) = c`
(declared min 0, max 4), nodata −32768. -/
def ex4 : EpfInput :=
  { rows := 5, cols := 5, z := fun _ c => (c : ℚ), nodata := -32768, minVal := 0, maxVal := 4 }

theorem ex4_cells (r c : ℤ) (h1 : 0 ≤ r) (h2 : r < ex4.rows) (h3 : 0 ≤ c) (h4 : c < ex4.cols) :
    binnedAt ex4 r c = 100 * c ∧ 100 * c ≠ I_MIN := by
  have hz : getZ ex4 r c = (c : ℚ) := by
    unfold getZ
    rw [if_pos ⟨h1, h2, h3, h4⟩]
    rfl
  have hne : getZ ex4 r c ≠ ex4.nodata := by
    rw [hz, show ex4.nodata = (-32768 : ℚ) from rfl]
    intro hcontra
    have : (c : ℚ) ≥ 0 := by exact_mod_cast h3
    norm_num [hcontra] at this
  constructor
  · unfold binnedAt minBin
    rw [if_neg hne, hz, show ex4.minVal = (0 : ℚ) from rfl]
    have hfc : (c : ℚ) * 100 = ((100 * c : ℤ) : ℚ) := by push_cast; ring
    rw [hfc, Int.floor_intCast]
    norm_num
  · have : 0 ≤ 100 * c := by omega
    have hI := I_MIN_neg
    omega

theorem ex4_mono (c1 c2 : ℤ) (h1 : 0 ≤ c1) (h2 : c1 < c2) (h3 : c2 < ex4.cols) :
    100 * c1 < 100 * c2 := by omega

/-- C4 counterexample: on the strictly column-increasing 5×5 grid `ex4` with
a 3×3 kernel, the fully interior cell `(2,2)` gets `100·(3/9) = 100/3`, not
the claimed `100·((k−1)/2)/(k−1) = 50`. -/
theorem epf_monotone_ramp_not_50 :
    epfOutput ex4 3 3 2 2 = 100 / 3 ∧ (100 / 3 : ℚ) ≠ 50 := by
  constructor
  · have h := epf_monotone_output ex4 1 (le_refl 1) (fun c => 100 * c)
      (fun r c h1 h2 h3 h4 => ex4_cells r c h1 h2 h3 h4)
      (fun c1 c2 h1 h2 h3 => ex4_mono c1 c2 h1 h2 h3) 2 2
      (by refine ⟨?_, ?_, ?_, ?_⟩ <;> simp [ex4])
    rw [show (2 * 1 + 1 : ℕ) = 3 from rfl] at h
    rw [h]
    norm_num
  · norm_num

/-- C4 (amended): on a grid whose binned values depend only on the column
and increase strictly with it, a fully interior cell of the `k×k` filter
(`k = 2·mx+1` odd, `k ≥ 3`) gets `100·((k−1)/2)/k = 100·mx/k` — not 50. -/
theorem epf_monotone_ramp_amended (g : EpfInput) (mx : ℕ) (hmx : 1 ≤ mx) (β : ℤ → ℤ)
    (hcells : ∀ r c, 0 ≤ r → r < g.rows → 0 ≤ c → c < g.cols →
        binnedAt g r c = β c ∧ β c ≠ I_MIN)
    (hmono : ∀ c1 c2, 0 ≤ c1 → c1 < c2 → c2 < g.cols → β c1 < β c2)
    (row : ℤ) (col : ℕ)
    (hint : (mx : ℤ) ≤ row ∧ row + mx < g.rows ∧ (mx : ℤ) ≤ (col : ℤ) ∧ (col : ℤ) + mx < g.cols) :
    epfOutput g (2 * mx + 1) (2 * mx + 1) row col = 100 * (mx : ℚ) / ((2 * mx + 1 : ℕ) : ℚ) :=
  epf_monotone_output g mx hmx β hcells hmono row col hint

/-- C4 witness: the amended theorem applied to the concrete ramp `ex4`. -/
theorem epf_monotone_ramp_amended_witness :
    (1 ≤ 1 ∧ ((1 : ℕ) : ℤ) ≤ 2 ∧ (2 : ℤ) + 1 < ex4.rows ∧ ((2 : ℕ) : ℤ) + 1 < ex4.cols) ∧
    epfOutput ex4 (2 * 1 + 1) (2 * 1 + 1) 2 2 = 100 * ((1 : ℕ) : ℚ) / ((2 * 1 + 1 : ℕ) : ℚ) := by
  constructor
  · refine ⟨le_refl 1, ?_, ?_, ?_⟩ <;> simp [ex4]
  · exact epf_monotone_ramp_amended ex4 1 (le_refl 1) (fun c => 100 * c)
      (fun r c h1 h2 h3 h4 => ex4_cells r c h1 h2 h3 h4)
      (fun c1 c2 h1 h2 h3 => ex4_mono c1 c2 h1 h2 h3) 2 2
      (by refine ⟨?_, ?_, ?_, ?_⟩ <;> simp [ex4])

theorem exConst_bin_center_valid : binnedAt exConst 1 1 ≠ I_MIN := by
  rw [exConst_bin_center]
  have := I_MIN_neg
  omega

/-- C3 witness: the recount equation instantiated on the constant grid. -/
theorem epf_incremental_matches_recount_witness :
    binnedAt exConst 1 ((1 : ℕ) : ℤ) ≠ I_MIN ∧
    epfOutput exConst 3 3 1 1
      = 100 * (windowLessCount (binnedAt exConst) 1 1 (midpointOf 3) (midpointOf 3)
            (binnedAt exConst 1 1) : ℚ)
        / (windowValidCount (binnedAt exConst) 1 1 (midpointOf 3) (midpointOf 3) : ℚ) := by
  refine ⟨by simpa using exConst_bin_center_valid, ?_⟩
  simpa using epf_incremental_matches_recount exConst 3 3 1 1
    (by simpa using exConst_bin_center_valid)

/-- C5 witness: the flat-surface theorem applied to the 3×3 constant grid. -/
theorem epf_flat_surface_witness :
    (∀ r c, getZ exConst r c ≠ exConst.nodata → getZ exConst r c = 5) ∧
    exConst.minVal ≤ 5 ∧
    getZ exConst 1 ((1 : ℕ) : ℤ) ≠ exConst.nodata ∧
    epfOutput exConst 3 3 1 1 = 0 :=
  ⟨exConst_getZ, le_refl _, by simpa using exConst_center,
   epf_flat_surface exConst 5 exConst_getZ (le_refl _) 3 3 1 1 (by simpa using exConst_center)⟩

/-- C6 witness: histogram consistency instantiated on the constant grid. -/
theorem epf_histogram_consistency_witness :
    (∀ r c, getZ exConst r c ≠ exConst.nodata →
        exConst.minVal ≤ getZ exConst r c ∧ getZ exConst r c ≤ exConst.maxVal) ∧
    binnedAt exConst 1 ((1 : ℕ) : ℤ) ≠ I_MIN ∧
    ((∑ v in Finset.Ico 0 (numBins exConst),
        (epfCell (binnedAt exConst) (midpointOf 3) (midpointOf 3) exConst.nodata 1 1).1.histo v)
      = (epfCell (binnedAt exConst) (midpointOf 3) (midpointOf 3) exConst.nodata 1 1).1.n ∧
    (∑ v in Finset.Ico 0 (binnedAt exConst 1 ((1 : ℕ) : ℤ)),
        (epfCell (binnedAt exConst) (midpointOf 3) (midpointOf 3) exConst.nodata 1 1).1.histo v)
      = (epfCell (binnedAt exConst) (midpointOf 3) (midpointOf 3) exConst.nodata 1 1).1.nLess) :=
  ⟨exConst_bracket, by simpa using exConst_bin_center_valid,
   epf_histogram_consistency exConst exConst_bracket 3 3 1 1
     (by simpa using exConst_bin_center_valid)⟩

/-- C7 witness: the index-range theorem applied to bin 0 of the constant
grid. -/
theorem epf_histogram_indices_in_bounds_witness :
    (∀ r c, getZ exConst r c ≠ exConst.nodata →
        exConst.minVal ≤ getZ exConst r c ∧ getZ exConst r c ≤ exConst.maxVal) ∧
    (0 : ℤ) ∈ stageBIndices exConst ∧
    ((0 : ℤ) ≤ 0 ∧ (0 : ℤ) < numBins exConst) := by
  have hmem : (0 : ℤ) ∈ stageBIndices exConst :=
    Or.inl ⟨1, 1, exConst_bin_center, by rw [← exConst_bin_center]; exact exConst_bin_center_valid⟩
  exact ⟨exConst_bracket, hmem,
    epf_histogram_indices_in_bounds exConst exConst_bracket 0 hmem⟩

/-! ## Row-block dispatch -/

/-- The row-block dispatch loop of `run` (`while ending_row < rows`):
at iteration `id` it spawns the block `[id·bs, min(id·bs + bs, rows))` where
`bs = rows / num_procs` (truncating integer division), then increments `id`.
The `while` loop has no intrinsic bound, so it is modelled with fuel:
`none` means the fuel ran out with the loop still running. -/
def dispatchAux (rows bs : ℕ) : ℕ → ℕ → ℕ → List (ℕ × ℕ) → Option (List (ℕ × ℕ))
  | 0, _, ending, acc => if ending < rows then none else some acc
  | fuel + 1, id, ending, acc =>
      if ending < rows then
        dispatchAux rows bs fuel (id + 1) (min (id * bs + bs) rows)
          (acc ++ [(id * bs, min (id * bs + bs) rows)])
      else some acc

/-- The dispatch loop as called by `run`: `row_block_size = rows / num_procs`,
`ending_row = 0`, `id = 0`. -/
def epfDispatch (rows w fuel : ℕ) : Option (List (ℕ × ℕ)) :=
  dispatchAux rows (rows / w) fuel 0 0 []

/-- C2 counterexample: for `rows = 10` and `W = 4` the loop produces five
blocks of size `⌊10/4⌋ = 2`, not four blocks of size `⌈10/4⌉ = 3`. -/
theorem epf_dispatch_not_ceil_blocks :
    epfDispatch 10 4 20 = some [(0, 2), (2, 4), (4, 6), (6, 8), (8, 10)] ∧
    ([(0, 2), (2, 4), (4, 6), (6, 8), (8, 10)] : List (ℕ × ℕ)).length ≠ 4 ∧
    (2 : ℕ) - 0 ≠ 3 := by
  refine ⟨by decide, by decide, by decide⟩

theorem dispatchAux_zero_bs (rows : ℕ) (hr : 0 < rows) :
    ∀ (fuel id : ℕ) (acc : List (ℕ × ℕ)), dispatchAux rows 0 fuel id 0 acc = none := by
  intro fuel
  induction fuel with
  | zero =>
      intro id acc
      unfold dispatchAux
      rw [if_pos hr]
  | succ f ih =>
      intro id acc
      unfold dispatchAux
      rw [if_pos hr]
      simpa using ih (id + 1) (acc ++ [(id * 0, min (id * 0 + 0) rows)])

theorem dispatchAux_run (rows bs : ℕ) (hbs : 1 ≤ bs) :
    ∀ (cnt fuel id : ℕ) (acc : List (ℕ × ℕ)),
      cnt ≤ fuel →
      rows ≤ (id + cnt) * bs →
      (∀ j, j < cnt → (id + j) * bs < rows) →
      dispatchAux rows bs fuel id (min (id * bs) rows) acc
        = some (acc ++ (List.range cnt).map fun i => ((id + i) * bs, min ((id + i + 1) * bs) rows)) := by
  intro cnt
  induction cnt with
  | zero =>
      intro fuel id acc _ hend _
      have hmin : min (id * bs) rows = rows := by
        rw [min_eq_right]
        simpa using hend
      cases fuel with
      | zero =>
          unfold dispatchAux
          rw [hmin, if_neg (lt_irrefl rows)]
          simp
      | succ f =>
          unfold dispatchAux
          rw [hmin, if_neg (lt_irrefl rows)]
          simp
  | succ cnt ih =>
      intro fuel id acc hfuel hend hin
      cases fuel with
      | zero => omega
      | succ f =>
          have hlt : id * bs < rows := by
            have := hin 0 (by omega)
            simpa using this
          have hmin : min (id * bs) rows = id * bs := by
            rw [min_eq_left]
            omega
          unfold dispatchAux
          rw [hmin, if_pos hlt]
          have hnext : id * bs + bs = (id + 1) * bs := by ring
          rw [hnext]
          have := ih f (id + 1) (acc ++ [(id * bs, min ((id + 1) * bs) rows)])
            (by omega)
            (by rw [show id + 1 + cnt = id + (cnt + 1) from by ring]; exact hend)
            (by intro j hj
                rw [show id + 1 + j = id + (j + 1) from by ring]
                exact hin (j + 1) (by omega))
          rw [this, List.append_assoc, List.range_succ_eq_map]
          simp only [List.map_cons, List.map_map, List.singleton_append, Nat.add_zero]
          refine congrArg (fun l => some (acc ++ (id * bs, (id + 1) * bs ⊓ rows) :: l)) ?_
          refine List.map_congr_left fun i _ => ?_
          simp only [Function.comp_apply, Nat.succ_eq_add_one]
          congr 2 <;> ring

theorem epf_dispatch_sum_sizes (rows bs : ℕ) (hr : 1 ≤ rows) (nb : ℕ)
    (hnb : rows ≤ nb * bs) (hin : ∀ j, j < nb → j * bs < rows) :
    (((List.range nb).map fun i => min ((i + 1) * bs) rows - i * bs).sum = rows) := by
  cases nb with
  | zero =>
      exfalso
      simp only [Nat.zero_mul] at hnb
      omega
  | succ m =>
      rw [List.range_succ, List.map_append, List.sum_append]
      have hlast : min ((m + 1) * bs) rows - m * bs = rows - m * bs := by
        rw [min_eq_right hnb]
      have hmlt : m * bs < rows := hin m (by omega)
      have hpre : (List.range m).map (fun i => min ((i + 1) * bs) rows - i * bs)
          = (List.range m).map fun _ => bs := by
        refine List.map_congr_left fun i hi => ?_
        have him : i < m := List.mem_range.1 hi
        have hle : (i + 1) * bs ≤ m * bs := Nat.mul_le_mul_right bs (by omega)
        rw [min_eq_left (by omega)]
        have : (i + 1) * bs = i * bs + bs := by ring
        omega
      rw [hpre]
      have hconst : ((List.range m).map fun _ => bs).sum = m * bs := by
        rw [List.map_const', List.sum_replicate, List.length_range, smul_eq_mul]
      simp only [List.map_cons, List.map_nil, List.sum_cons, List.sum_nil, hconst, hlast]
      omega

/-- C2 (amended): the dispatch uses block size `⌊rows/W⌋`, not `⌈rows/W⌉`.
When `W ≤ rows` the loop terminates and partitions `[0,rows)` into
contiguous blocks `[i·bs, min((i+1)·bs, rows))` — possibly more than `W` of
them — every row lying in exactly one block, and the total number of
produced (hence consumed) row messages is `rows`.  When `1 ≤ rows < W` the
block size is zero and the dispatch loop never terminates. -/
theorem epf_dispatch_floor_blocks (rows w : ℕ) (hr : 1 ≤ rows) (hw : 1 ≤ w) :
    (w ≤ rows →
      ∃ nb : ℕ,
        epfDispatch rows w (rows + 1)
          = some ((List.range nb).map fun i =>
              (i * (rows / w), min ((i + 1) * (rows / w)) rows)) ∧
        rows ≤ nb * (rows / w) ∧
        (∀ j, j < nb → j * (rows / w) < rows) ∧
        (∀ r, r < rows → ∃! i : ℕ, i < nb ∧
            i * (rows / w) ≤ r ∧ r < min ((i + 1) * (rows / w)) rows) ∧
        (((List.range nb).map fun i =>
            min ((i + 1) * (rows / w)) rows - i * (rows / w)).sum = rows)) ∧
    (rows < w → ∀ fuel, epfDispatch rows w fuel = none) := by
  constructor
  · intro hwr
    have hbs : 1 ≤ rows / w := (Nat.one_le_div_iff (by omega)).2 hwr
    have hex : ∃ m, rows ≤ m * (rows / w) := by
      refine ⟨rows, ?_⟩
      calc rows = rows * 1 := by ring
        _ ≤ rows * (rows / w) := Nat.mul_le_mul_left rows hbs
    have hnb : rows ≤ Nat.find hex * (rows / w) := Nat.find_spec hex
    have hin : ∀ j, j < Nat.find hex → j * (rows / w) < rows := by
      intro j hj
      have := Nat.find_min hex hj
      omega
    have hnble : Nat.find hex ≤ rows := Nat.find_min' hex (by
      calc rows = rows * 1 := by ring
        _ ≤ rows * (rows / w) := Nat.mul_le_mul_left rows hbs)
    refine ⟨Nat.find hex, ?_, hnb, hin, ?_, ?_⟩
    · have hrun := dispatchAux_run rows (rows / w) hbs (Nat.find hex) (rows + 1) 0 []
        (by omega)
        (by simpa using hnb)
        (by intro j hj; simpa using hin j hj)
      rw [epfDispatch]
      simp only [Nat.zero_mul, Nat.zero_min, List.nil_append, Nat.zero_add] at hrun
      rw [hrun]
    · intro r hrr
      have hq1 : (r / (rows / w)) * (rows / w) ≤ r := Nat.div_mul_le_self r (rows / w)
      have hdm := Nat.div_add_mod r (rows / w)
      have hm2 : r % (rows / w) < rows / w := Nat.mod_lt r (by omega)
      have hq2 : r < (r / (rows / w) + 1) * (rows / w) := by
        have h1 : (r / (rows / w) + 1) * (rows / w)
            = (rows / w) * (r / (rows / w)) + (rows / w) := by ring
        omega
      have hqlt : r / (rows / w) < Nat.find hex := by
        by_contra hge
        push_neg at hge
        have hmul : Nat.find hex * (rows / w) ≤ (r / (rows / w)) * (rows / w) :=
          Nat.mul_le_mul_right _ hge
        omega
      refine ⟨r / (rows / w), ⟨hqlt, hq1, lt_min hq2 hrr⟩, ?_⟩
      rintro j ⟨hj, hj1, hj2⟩
      have hj2x : r < (j + 1) * (rows / w) := lt_of_lt_of_le hj2 (min_le_left _ _)
      have hdiv : r / (rows / w) = j := Nat.div_eq_of_lt_le hj1 hj2x
      omega
    · exact epf_dispatch_sum_sizes rows (rows / w) hr (Nat.find hex) hnb hin
  · intro hlt fuel
    rw [epfDispatch, Nat.div_eq_of_lt hlt]
    exact dispatchAux_zero_bs rows (by omega) fuel 0 []

/-- C2 witness: the floor-block dispatch theorem applied at
`rows = 10`, `W = 4`. -/
theorem epf_dispatch_floor_blocks_witness :
    (1 ≤ 10 ∧ 1 ≤ 4) ∧
    ((4 ≤ 10 →
      ∃ nb : ℕ,
        epfDispatch 10 4 (10 + 1)
          = some ((List.range nb).map fun i =>
              (i * (10 / 4), min ((i + 1) * (10 / 4)) 10)) ∧
        10 ≤ nb * (10 / 4) ∧
        (∀ j, j < nb → j * (10 / 4) < 10) ∧
        (∀ r, r < 10 → ∃! i : ℕ, i < nb ∧
            i * (10 / 4) ≤ r ∧ r < min ((i + 1) * (10 / 4)) 10) ∧
        (((List.range nb).map fun i =>
            min ((i + 1) * (10 / 4)) 10 - i * (10 / 4)).sum = 10)) ∧
     (10 < 4 → ∀ fuel, epfDispatch 10 4 fuel = none)) :=
  ⟨⟨by decide, by decide⟩, epf_dispatch_floor_blocks 10 4 (by decide) (by decide)⟩

/-! ## LiDAR flightline overlap (LFO) -/

/-- Modelled from the spec: a LAS point record as exposed by the external
`LasReader` (spec §2/§3); formats 1 and 3 carry a GPS time, formats 0 and 2
do not. -/
inductive LidarPointRecord where
  | pointRecord0 (x y z : ℚ)
  | pointRecord1 (x y z gps : ℚ)
  | pointRecord2 (x y z : ℚ)
  | pointRecord3 (x y z gps : ℚ) (rgb : ℕ × ℕ × ℕ)

/-- Modelled from the spec: the LAS header fields the tool reads (point
format and the georeferenced bounds). -/
structure LasHeader where
  pointFormat : ℕ
  minX : ℚ
  maxX : ℚ
  minY : ℚ
  maxY : ℚ

/-- Modelled from the spec: a LAS file is its header plus indexed access to
the point records. -/
structure LasFile where
  header : LasHeader
  points : List LidarPointRecord

/-- Modelled from the spec §4.2: the fixed-radius search structure.  `search`
returns every stored entry whose stored `(x,y)` lies within `radius` of the
query, with its squared distance; the 9-bucket scan of the implementation
only affects enumeration order, which the spec leaves unspecified — entries
are returned in insertion order here. -/
structure FixedRadiusSearch (P : Type) where
  radius : ℚ
  entries : List (ℚ × ℚ × P)

def FixedRadiusSearch.insertPt {P : Type} (frs : FixedRadiusSearch P) (x y : ℚ) (p : P) :
    FixedRadiusSearch P :=
  { frs with entries := frs.entries ++ [(x, y, p)] }

def FixedRadiusSearch.search {P : Type} (frs : FixedRadiusSearch P) (x y : ℚ) :
    List (P × ℚ) :=
  frs.entries.filterMap fun e =>
    let d2 := (e.1 - x) * (e.1 - x) + (e.2.1 - y) * (e.2.1 - y)
    if d2 ≤ frs.radius * frs.radius then some (e.2.2, d2) else none

/-- The per-record `match` of the point-reading loop: records of format 1 or
3 yield `(x, y, gps_time)`; any other format hits the fatal `panic!` arm,
modelled as an error outcome. -/
def extractPoint : LidarPointRecord → Except String (ℚ × ℚ × ℚ)
  | .pointRecord1 x y _ gps => Except.ok (x, y, gps)
  | .pointRecord3 x y _ gps _ => Except.ok (x, y, gps)
  | _ => Except.error "The input file has a Point Format that does not include GPS time, which is required for the operation of this tool."

/-- Stage A: insert every point into the fixed-radius search keyed by its
sequence index (`frs.insert(x, y, i)`). -/
def buildFrs (gridRes : ℚ) (pts : List (ℚ × ℚ × ℚ)) : FixedRadiusSearch ℕ :=
  (pts.enum).foldl (fun s ip => s.insertPt ip.2.1 ip.2.2.1 ip.1)
    { radius := gridRes, entries := [] }

/-- The inner candidate loop of stage C: walk the query result in order and
push `gps_times[id]` for every candidate whose point falls inside the square
cell (`(x_n−x)² ≤ half_res_sqrd` and `(y_n−y)² ≤ half_res_sqrd`). -/
def cellTimes (ptXY : ℕ → ℚ × ℚ) (gps : ℕ → ℚ) (x y hrs : ℚ) :
    List (ℕ × ℚ) → List ℚ
  | [] => []
  | c :: rest =>
      let p := ptXY c.1
      if (p.1 - x) * (p.1 - x) ≤ hrs ∧ (p.2 - y) * (p.2 - y) ≤ hrs then
        gps c.1 :: cellTimes ptXY gps x y hrs rest
      else cellTimes ptXY gps x y hrs rest

/-- `for j in 1..times.len() { if times[j] - times[j-1] > 15.0 { … += 1 } }`:
the number of adjacent pairs with a gap above the 15-second threshold. -/
def countGaps : List ℚ → ℕ
  | a :: b :: rest => (if 15 < b - a then 1 else 0) + countGaps (b :: rest)
  | _ => 0

/-- Stage C for one cell, given the radius-query result `ret`: keep the
candidates inside the square cell, write nodata when nothing is kept, else
one plus the number of sorted adjacent gaps above the threshold.
`half_res_sqrd = grid_res / 2.0 * grid_res / 2.0` as in the source. -/
def lfoCellValue (ptXY : ℕ → ℚ × ℚ) (gps : ℕ → ℚ) (gridRes nodata x y : ℚ)
    (ret : List (ℕ × ℚ)) : ℚ :=
  if 0 < ret.length then
    if 0 < (cellTimes ptXY gps x y (gridRes / 2 * gridRes / 2) ret).length then
      1 + (countGaps
        ((cellTimes ptXY gps x y (gridRes / 2 * gridRes / 2) ret).insertionSort (· ≤ ·)) : ℚ)
    else nodata
  else nodata

/-- The output raster the LFO run produces (spec stage B grid layout). -/
structure LfoOutput where
  rows : ℕ
  cols : ℕ
  west : ℚ
  north : ℚ
  south : ℚ
  east : ℚ
  nodata : ℚ
  value : ℕ → ℕ → ℚ

/-- The LFO `run` after argument handling: reject headers whose point format
carries no GPS time (0 or 2), extract `(x, y, gps)` from every record (other
formats panic, modelled as an error), build the index, then rasterize.  The
cell centre uses the source's constant `0.5` offset (`+ 0.5`, written `1/2`),
not `res/2`.  The output raster exists only in the `Except.ok` case. -/
def lfoRun (input : LasFile) (gridRes : ℚ) : Except String LfoOutput :=
  if input.header.pointFormat = 0 ∨ input.header.pointFormat = 2 then
    Except.error "The input file has a Point Format that does not include GPS time, which is required for the operation of this tool."
  else do
    let pts ← input.points.mapM extractPoint
    let frs := buildFrs gridRes pts
    let gpsArr : ℕ → ℚ := fun i => ((pts.get? i).map fun p => p.2.2).getD (-1)
    let ptXY : ℕ → ℚ × ℚ := fun i => ((pts.get? i).map fun p => (p.1, p.2.1)).getD (0, 0)
    let west := input.header.minX
    let north := input.header.maxY
    let rows := ((north - input.header.minY) / gridRes).ceil.toNat
    let cols := ((input.header.maxX - west) / gridRes).ceil.toNat
    let nodata : ℚ := -32768
    Except.ok
      { rows := rows
        cols := cols
        west := west
        north := north
        south := north - (rows : ℚ) * gridRes
        east := west + (cols : ℚ) * gridRes
        nodata := nodata
        value := fun row col =>
          let x := west + (col : ℚ) * gridRes + 1 / 2
          let y := north - (row : ℚ) * gridRes - 1 / 2
          lfoCellValue ptXY gpsArr gridRes nodata x y (frs.search x y) }

/-- C8: a LAS header declaring point format 0 or 2 (no GPS time) makes the
run fail with an input error, and no output raster is produced. -/
theorem lfo_rejects_formats_without_gps (input : LasFile) (gridRes : ℚ)
    (h : input.header.pointFormat = 0 ∨ input.header.pointFormat = 2) :
    (∃ msg, lfoRun input gridRes = Except.error msg) ∧
    ∀ out, lfoRun input gridRes ≠ Except.ok out := by
  have herr : lfoRun input gridRes = Except.error
      "The input file has a Point Format that does not include GPS time, which is required for the operation of this tool." := by
    rw [lfoRun, if_pos h]
  exact ⟨⟨_, herr⟩, fun out hcontra => by rw [herr] at hcontra; exact Except.noConfusion hcontra⟩

/-- A one-point LAS file declaring point format 0. -/
def exLas0 : LasFile :=
  { header := { pointFormat := 0, minX := 0, maxX := 1, minY := 0, maxY := 1 },
    points := [.pointRecord0 (1/2) (1/2) 0] }

/-- C8 witness: the rejection theorem applied to the format-0 file. -/
theorem lfo_rejects_formats_without_gps_witness :
    (exLas0.header.pointFormat = 0 ∨ exLas0.header.pointFormat = 2) ∧
    ((∃ msg, lfoRun exLas0 1 = Except.error msg) ∧
      ∀ out, lfoRun exLas0 1 ≠ Except.ok out) :=
  ⟨Or.inl rfl, lfo_rejects_formats_without_gps exLas0 1 (Or.inl rfl)⟩

theorem cellTimes_eq_filter (ptXY : ℕ → ℚ × ℚ) (gps : ℕ → ℚ) (x y hrs : ℚ) :
    ∀ l : List (ℕ × ℚ),
      cellTimes ptXY gps x y hrs l
        = (l.filter fun c =>
            ((ptXY c.1).1 - x) * ((ptXY c.1).1 - x) ≤ hrs ∧
            ((ptXY c.1).2 - y) * ((ptXY c.1).2 - y) ≤ hrs).map fun c => gps c.1 := by
  intro l
  induction l with
  | nil => rfl
  | cons c rest ih =>
      rw [show cellTimes ptXY gps x y hrs (c :: rest)
          = if ((ptXY c.1).1 - x) * ((ptXY c.1).1 - x) ≤ hrs ∧
              ((ptXY c.1).2 - y) * ((ptXY c.1).2 - y) ≤ hrs then
              gps c.1 :: cellTimes ptXY gps x y hrs rest
            else cellTimes ptXY gps x y hrs rest from rfl,
        List.filter_cons]
      by_cases hc : ((ptXY c.1).1 - x) * ((ptXY c.1).1 - x) ≤ hrs ∧
          ((ptXY c.1).2 - y) * ((ptXY c.1).2 - y) ≤ hrs
      · rw [if_pos hc, ih]
        simp [hc]
      · rw [if_neg hc, ih]
        simp [hc]

/-- C9: given the candidates returned by the radius query at `(x,y)`, the
per-cell computation keeps exactly the candidates whose point satisfies
`(x_n−x)² ≤ (res/2)²` and `(y_n−y)² ≤ (res/2)²`; if none is kept the cell is
the nodata value −32768, and otherwise it is 1 plus the number of adjacent
pairs, in an ascending sort of the kept GPS times, whose gap exceeds 15
seconds. -/
theorem lfo_cell_cluster_count (ptXY : ℕ → ℚ × ℚ) (gps : ℕ → ℚ) (gridRes x y : ℚ)
    (frs : FixedRadiusSearch ℕ) :
    (cellTimes ptXY gps x y (gridRes / 2 * gridRes / 2) (frs.search x y)
        = ((frs.search x y).filter fun c =>
            ((ptXY c.1).1 - x) ^ 2 ≤ (gridRes / 2) ^ 2 ∧
            ((ptXY c.1).2 - y) ^ 2 ≤ (gridRes / 2) ^ 2).map fun c => gps c.1) ∧
    (((frs.search x y).filter fun c =>
          ((ptXY c.1).1 - x) ^ 2 ≤ (gridRes / 2) ^ 2 ∧
          ((ptXY c.1).2 - y) ^ 2 ≤ (gridRes / 2) ^ 2) = [] →
      lfoCellValue ptXY gps gridRes (-32768) x y (frs.search x y) = -32768) ∧
    (((frs.search x y).filter fun c =>
          ((ptXY c.1).1 - x) ^ 2 ≤ (gridRes / 2) ^ 2 ∧
          ((ptXY c.1).2 - y) ^ 2 ≤ (gridRes / 2) ^ 2) ≠ [] →
      ∃ ts : List ℚ,
        ts.Perm ((((frs.search x y).filter fun c =>
            ((ptXY c.1).1 - x) ^ 2 ≤ (gridRes / 2) ^ 2 ∧
            ((ptXY c.1).2 - y) ^ 2 ≤ (gridRes / 2) ^ 2).map fun c => gps c.1)) ∧
        ts.Sorted (· ≤ ·) ∧
        lfoCellValue ptXY gps gridRes (-32768) x y (frs.search x y)
          = 1 + (countGaps ts : ℚ)) := by
  have hiff : ∀ c : ℕ × ℚ,
      (((ptXY c.1).1 - x) * ((ptXY c.1).1 - x) ≤ gridRes / 2 * gridRes / 2 ∧
        ((ptXY c.1).2 - y) * ((ptXY c.1).2 - y) ≤ gridRes / 2 * gridRes / 2) ↔
      (((ptXY c.1).1 - x) ^ 2 ≤ (gridRes / 2) ^ 2 ∧
        ((ptXY c.1).2 - y) ^ 2 ≤ (gridRes / 2) ^ 2) := by
    intro c
    have e1 : ((ptXY c.1).1 - x) * ((ptXY c.1).1 - x) = ((ptXY c.1).1 - x) ^ 2 := by ring
    have e2 : ((ptXY c.1).2 - y) * ((ptXY c.1).2 - y) = ((ptXY c.1).2 - y) ^ 2 := by ring
    have e3 : gridRes / 2 * gridRes / 2 = (gridRes / 2) ^ 2 := by ring
    rw [e1, e2, e3]
  have hct : cellTimes ptXY gps x y (gridRes / 2 * gridRes / 2) (frs.search x y)
      = ((frs.search x y).filter fun c =>
          ((ptXY c.1).1 - x) ^ 2 ≤ (gridRes / 2) ^ 2 ∧
          ((ptXY c.1).2 - y) ^ 2 ≤ (gridRes / 2) ^ 2).map fun c => gps c.1 := by
    rw [cellTimes_eq_filter]
    congr 1
    refine List.filter_congr fun c _ => ?_
    rw [decide_eq_decide]
    exact hiff c
  refine ⟨hct, ?_, ?_⟩
  · intro hk
    unfold lfoCellValue
    by_cases hr : 0 < (frs.search x y).length
    · rw [if_pos hr, hct, hk]
      simp
    · rw [if_neg hr]
  · intro hk
    have hret : (frs.search x y) ≠ [] := by
      intro hcontra
      rw [hcontra] at hk
      simp at hk
    have hr : 0 < (frs.search x y).length := List.length_pos.2 hret
    have hlen : 0 < (cellTimes ptXY gps x y (gridRes / 2 * gridRes / 2) (frs.search x y)).length := by
      rw [hct, List.length_map]
      exact List.length_pos.2 hk
    refine ⟨(cellTimes ptXY gps x y (gridRes / 2 * gridRes / 2)
        (frs.search x y)).insertionSort (· ≤ ·), ?_, ?_, ?_⟩
    · exact (List.perm_insertionSort _ _).trans (by rw [hct])
    · exact List.sorted_insertionSort _ _
    · unfold lfoCellValue
      rw [if_pos hr, if_pos hlen]
